import Mathlib

/-!
Verification of the completion-correlation and outcome-extraction core of
`plugins/backend-toolbox/scripts/auto-save-signal-on-stop.py`.

The Python functions are shallowly embedded over `List Char` / `String`:
`find_task_call_for_agent`, `parse_workflow_context`,
`parse_status_from_transcript` and `extract_markdown_sections` are translated
definition by definition.  Python string operations (`in`, `startswith`,
`split`, `strip`, `replace`, `upper`, `lower`) and the regular expressions of
the source are modelled character by character over the ASCII range; regular
expressions are unfolded into their leftmost-match scanning behaviour.
File-system access is modelled by `Option`: a missing or unreadable log file
is `none`, a log file is a list of lines, an unparsable line is `none`.
-/

namespace AutoSave

/-- Whitespace in the sense of Python's `\s` / `str.strip` (ASCII range). -/
def isSpace (c : Char) : Bool :=
  c == ' ' || c == '\t' || c == '\n' || c == '\r' || c == '\x0b' || c == '\x0c'

/-- Python `pat in hay` substring test, on character lists. -/
def listContains (hay pat : List Char) : Bool :=
  match hay with
  | [] => pat.isEmpty
  | _ :: t => pat.isPrefixOf hay || listContains t pat

/-- Python `pat in hay` on strings. -/
def strContains (hay pat : String) : Bool :=
  listContains hay.data pat.data

/-- Python `s.startswith(pat)`. -/
def startsWithStr (s pat : String) : Bool :=
  pat.data.isPrefixOf s.data

/-- Python `s.split('\n')` (always at least one piece). -/
def splitOnNl : List Char → List (List Char)
  | [] => [[]]
  | '\n' :: rest => [] :: splitOnNl rest
  | c :: rest =>
    match splitOnNl rest with
    | h :: t => (c :: h) :: t
    | [] => [[c]]

/-- Python `'\n'.join(lines)`. -/
def joinNl (lines : List (List Char)) : List Char :=
  List.intercalate ['\n'] lines

/-- Python `s.strip()` (ASCII whitespace model). -/
def stripChars (cs : List Char) : List Char :=
  ((cs.dropWhile isSpace).reverse.dropWhile isSpace).reverse

/-- Python `s.upper()` character-wise. -/
def upperL (cs : List Char) : List Char := cs.map Char.toUpper

/-- Python `s.lower()` character-wise. -/
def lowerL (cs : List Char) : List Char := cs.map Char.toLower

/-! ## Correlator: `find_task_call_for_agent`

The parent log is a list of lines; a line is `none` when it is blank or not
well-formed JSON (the source skips those), otherwise an entry with the
`message.content` items the source reads.  A `tool_result` item's content is
modelled as the final text the source derives from it (for list-shaped content
the source joins the text items with newlines before use). -/

/-- One item of an entry's `message.content` list.  Items of other `type`s,
and items that are not dictionaries, are `other` (the source ignores them). -/
inductive ContentItem where
  | toolUse (id name subagentType prompt : String)
  | toolResult (toolUseId content : String)
  | other
  deriving DecidableEq, Repr

/-- One well-formed log entry: its content items, and
`toolUseResult.agentId` when the entry carries a `toolUseResult` dict with
that key (the source treats an empty string there as absent via truthiness,
which is kept as an explicit test below). -/
structure Entry where
  content : List ContentItem
  agentIdResult : Option String
  deriving DecidableEq, Repr

/-- The invocation record the correlator returns: `subagent_type` and
`prompt` of a `Task` tool call. -/
structure TaskCall where
  subagentType : String
  prompt : String
  deriving DecidableEq, Repr

/-- The empty record returned on any failure. -/
def emptyCall : TaskCall := ⟨"", ""⟩

/-- The two insertion-ordered dicts built by the scan
(`task_calls` and `tool_results` in the source). -/
structure ScanState where
  taskCalls : List (String × TaskCall)
  toolResults : List (String × String)
  deriving DecidableEq, Repr

/-- Python dict assignment `d[k] = v`: overwrite in place if the key exists,
else append (insertion order preserved). -/
def dictInsert {α : Type} (d : List (String × α)) (k : String) (v : α) :
    List (String × α) :=
  if d.any (fun p => p.1 == k) then
    d.map (fun p => if p.1 == k then (k, v) else p)
  else d ++ [(k, v)]

/-- Python dict lookup `d[k]` / `k in d`. -/
def dictLookup {α : Type} (d : List (String × α)) (k : String) : Option α :=
  (d.find? (fun p => p.1 == k)).map Prod.snd

/-- The filter under which a `Task` tool call is indexed into `task_calls`:
its name is `Task`, its `subagent_type` starts with `backend-toolbox:` and its
prompt contains both workflow markers. -/
def taskUseIndexed (name sub prompt : String) : Bool :=
  name == "Task" && startsWithStr sub "backend-toolbox:" &&
    strContains prompt "TASK_ID:" && strContains prompt "reportType:"

/-- First pass over one content item (`tool_use` / `tool_result` collection). -/
def processItem (st : ScanState) (item : ContentItem) : ScanState :=
  match item with
  | .toolUse id name sub prompt =>
    if taskUseIndexed name sub prompt then
      { st with taskCalls := dictInsert st.taskCalls id ⟨sub, prompt⟩ }
    else st
  | .toolResult id content =>
    if id == "" then st
    else { st with toolResults := dictInsert st.toolResults id content }
  | .other => st

/-- The `toolUseResult` pass: for each `tool_result` item of the entry, record
`"agentId: <aid>"` under its `tool_use_id`. -/
def processResultAgent (aid : String) (st : ScanState) (item : ContentItem) :
    ScanState :=
  match item with
  | .toolResult id _ =>
    if id == "" then st
    else { st with toolResults := dictInsert st.toolResults id ("agentId: " ++ aid) }
  | _ => st

/-- Scan of one well-formed entry. -/
def processEntry (st : ScanState) (e : Entry) : ScanState :=
  let st1 := e.content.foldl processItem st
  match e.agentIdResult with
  | some aid =>
    if aid == "" || e.content.isEmpty then st1
    else e.content.foldl (processResultAgent aid) st1
  | none => st1

/-- Scan of one raw log line (skips blank / malformed lines). -/
def scanLine (st : ScanState) (line : Option Entry) : ScanState :=
  match line with
  | none => st
  | some e => processEntry st e

/-- The full first pass of `find_task_call_for_agent` over the parent log. -/
def scanLog (log : List (Option Entry)) : ScanState :=
  log.foldl scanLine ⟨[], []⟩

/-- Last value of the `task_calls` dict (the recency fallback), or the empty
record when no invocation was indexed. -/
def lastCall (d : List (String × TaskCall)) : TaskCall :=
  match d.getLast? with
  | some p => p.2
  | none => emptyCall

/-- The matching phase of `find_task_call_for_agent` after the scan: find the
first `tool_results` entry whose text contains the agent id, return the
corresponding indexed `Task` call, else fall back to the most recent indexed
call, else the empty record. -/
def resolveScan (st : ScanState) (agentId : String) : TaskCall :=
  let matched : Option String :=
    if agentId == "" then none
    else (st.toolResults.find? (fun p => listContains p.2.data agentId.data)).map Prod.fst
  match matched with
  | some k =>
    match (if k == "" then none else dictLookup st.taskCalls k) with
    | some tc => tc
    | none => lastCall st.taskCalls
  | none => lastCall st.taskCalls

/-- `find_task_call_for_agent(parent_transcript_path, agent_id)`: `none` is a
missing or unreadable parent log (the source returns the empty record from its
exception handler / existence check); `some log` is the readable log's lines. -/
def find_task_call_for_agent (file : Option (List (Option Entry)))
    (agentId : String) : TaskCall :=
  match file with
  | none => emptyCall
  | some log => resolveScan (scanLog log) agentId

/-- The indexed invocation produced by one content item, if any
(specification-side view of the scan's `task_calls` insertions). -/
def indexedOfItem : ContentItem → Option (String × TaskCall)
  | .toolUse id name sub prompt =>
    if taskUseIndexed name sub prompt then some (id, ⟨sub, prompt⟩) else none
  | _ => none

/-- All indexed invocations of a log, in scan order. -/
def indexedSpawns : List (Option Entry) → List (String × TaskCall)
  | [] => []
  | none :: rest => indexedSpawns rest
  | some e :: rest => e.content.filterMap indexedOfItem ++ indexedSpawns rest

/-- The most recently scanned indexed invocation of a log, or the empty
record when no invocation is indexed. -/
def lastIndexed (log : List (Option Entry)) : TaskCall :=
  match (indexedSpawns log).getLast? with
  | some q => q.2
  | none => emptyCall

/-! ## Workflow context: `parse_workflow_context`

The three regular expressions of the source are unfolded into explicit
leftmost-match scans.  For `TASK_ID:\s*[`"]?(\S+?)[`"]?\s` the backtracking
behaviour over a maximal non-whitespace token run is captured by
`taskTokenGroup`; for `##\s*Output\s*\n\s*reportType:\s*(\S+)` the greedy
whitespace runs collapse to `dropWhile`/`takeWhile` since every literal that
follows them starts with a non-whitespace character. -/

/-- A backtick or double quote: the class ``[`"]`` of the TASK_ID pattern. -/
def isQuote (c : Char) : Bool := c == '`' || c == '"'

/-- Python `s.strip('`"')`: drop all leading and trailing quote characters. -/
def stripQuotes (cs : List Char) : List Char :=
  ((cs.dropWhile isQuote).reverse.dropWhile isQuote).reverse

/-- The optional leading quote of ``[`"]?(\S+?)``: it is consumed exactly
when the head is a quote character and at least one character remains for the
mandatory lazy group (otherwise the engine backtracks the optional to empty). -/
def dropLeadQuote (T : List Char) : List Char :=
  match T with
  | t0 :: t1 :: rest => if isQuote t0 then t1 :: rest else T
  | _ => T

/-- The optional trailing quote of ``(\S+?)[`"]?``: the lazy group stops one
character early exactly when the remaining run ends with a quote character
and still keeps at least one character for the group. -/
def dropTrailQuote (T : List Char) : List Char :=
  if 2 ≤ T.length && isQuote (T.getLastD ' ') then T.dropLast else T

/-- The group captured by ``[`"]?(\S+?)[`"]?`` inside the maximal
non-whitespace run `T` that follows `TASK_ID:\s*` (with a whitespace
terminator after `T`). -/
def taskTokenGroup (T : List Char) : List Char :=
  dropTrailQuote (dropLeadQuote T)

/-- Attempt of the TASK_ID pattern with the literal `TASK_ID:` consumed:
skip whitespace, take the maximal non-whitespace token run, require a
whitespace terminator after it (the pattern ends in a mandatory `\s`),
then strip quotes from the captured group as `parse_workflow_context` does. -/
def taskIdAt (s : List Char) : Option (List Char) :=
  let tokArea := s.dropWhile isSpace
  let T := tokArea.takeWhile (fun c => !(isSpace c))
  if T.isEmpty then none
  else if (tokArea.drop T.length).isEmpty then none
  else some (stripQuotes (taskTokenGroup T))

/-- `re.search` of the TASK_ID pattern: leftmost position where the full
pattern matches, already composed with the quote strip of the source. -/
def taskIdSearch : List Char → Option (List Char)
  | [] => none
  | c :: rest =>
    if "TASK_ID:".data.isPrefixOf (c :: rest) then
      match taskIdAt ((c :: rest).drop 8) with
      | some g => some g
      | none => taskIdSearch rest
    else taskIdSearch rest

/-- `\s*(\S+)` with the preceding literal consumed: skip whitespace, capture
the maximal non-whitespace run, which must be non-empty. -/
def reportTypeAt (s : List Char) : Option (List Char) :=
  let after := s.dropWhile isSpace
  let g := after.takeWhile (fun c => !(isSpace c))
  if g.isEmpty then none else some g

/-- `re.search(r'reportType:\s*(\S+)', text)`: the inline shape. -/
def inlineReportSearch : List Char → Option (List Char)
  | [] => none
  | c :: rest =>
    if "reportType:".data.isPrefixOf (c :: rest) then
      match reportTypeAt ((c :: rest).drop 11) with
      | some g => some g
      | none => inlineReportSearch rest
    else inlineReportSearch rest

/-- Attempt of `##\s*Output\s*\n\s*reportType:\s*(\S+)` at one position:
after `##` and whitespace comes `Output`; the whitespace run after `Output`
must contain a newline (the mandatory `\n` of the pattern, with `\s*` on both
sides of it absorbing the rest of the run); then `reportType:` and its
token. -/
def headingAt (cs : List Char) : Option (List Char) :=
  if "##".data.isPrefixOf cs then
    let s1 := (cs.drop 2).dropWhile isSpace
    if "Output".data.isPrefixOf s1 then
      let s2 := s1.drop 6
      if (s2.takeWhile isSpace).any (fun c => c == '\n') then
        let after := s2.dropWhile isSpace
        if "reportType:".data.isPrefixOf after then reportTypeAt (after.drop 11)
        else none
      else none
    else none
  else none

/-- `re.search` of the heading-scoped reportType pattern. -/
def headingReportSearch : List Char → Option (List Char)
  | [] => none
  | c :: rest =>
    match headingAt (c :: rest) with
    | some g => some g
    | none => headingReportSearch rest

/-- The result of `parse_workflow_context`: both fields optional. -/
structure WorkflowContext where
  taskId : Option String
  reportType : Option String
  deriving DecidableEq, Repr

/-- `parse_workflow_context(prompt)`: TASK_ID extraction, then the
heading-scoped reportType shape, then the inline shape. -/
def parse_workflow_context (prompt : String) : WorkflowContext :=
  { taskId := (taskIdSearch prompt.data).map String.mk
    reportType :=
      match headingReportSearch prompt.data with
      | some g => some (String.mk g)
      | none => (inlineReportSearch prompt.data).map String.mk }

/-! ## Outcome extractor: `parse_status_from_transcript` and
`extract_markdown_sections` -/

/-- Case-insensitive prefix test against an upper-case pattern
(`re.IGNORECASE` over the ASCII range). -/
def ciStarts : List Char → List Char → Bool
  | [], _ => true
  | _ :: _, [] => false
  | p :: ps, c :: cs => (p == c.toUpper) && ciStarts ps cs

/-- `re.search(r'STATUS:\s*(PASSED|FAILED)', t, re.IGNORECASE)`:
`some true` for PASSED, `some false` for FAILED.  The greedy `\s*` must stop
at the first non-whitespace character since both alternatives start with
one. -/
def statusSearch : List Char → Option Bool
  | [] => none
  | c :: rest =>
    if ciStarts "STATUS:".data (c :: rest) then
      let after := ((c :: rest).drop 7).dropWhile isSpace
      if ciStarts "PASSED".data after then some true
      else if ciStarts "FAILED".data after then some false
      else statusSearch rest
    else statusSearch rest

/-- Python `line.split(':', 1)[-1]`: the part after the first colon, or the
whole line when no colon occurs. -/
def afterColon (l : List Char) : List Char :=
  match l.dropWhile (fun c => !(c == ':')) with
  | [] => l
  | _ :: rest => rest

/-- Python `s.replace(pat, '')`: remove all left-to-right non-overlapping
occurrences of the (non-empty) pattern. -/
def removeAll (pat : List Char) (l : List Char) : List Char :=
  match l with
  | [] => []
  | c :: rest =>
    if !pat.isEmpty && pat.isPrefixOf (c :: rest) then
      removeAll pat (rest.drop (pat.length - 1))
    else c :: removeAll pat rest
termination_by l.length
decreasing_by
  · simp only [List.length_drop, List.length_cons]
    omega
  · simp only [List.length_cons]
    omega

/-- The summary loop of the explicit-status branch: find the first line whose
upper case contains `STATUS:`; use the text after the first colon with the
upper-case status word removed if longer than 10 characters once stripped,
else the stripped previous line if non-blank, else give up (the `break`). -/
def statusLoop (statusU : List Char) (prev : Option (List Char)) :
    List (List Char) → Option (List Char)
  | [] => none
  | l :: rest =>
    if listContains (upperL l) "STATUS:".data then
      let afterS := stripChars (removeAll statusU (afterColon l))
      if !afterS.isEmpty && decide (10 < afterS.length) then some (afterS.take 200)
      else
        match prev with
        | some p =>
          if !(stripChars p).isEmpty then some ((stripChars p).take 200) else none
        | none => none
    else statusLoop statusU (some l) rest

/-- The fixed failure phrases of the heuristic branch, in source order. -/
def failureIndicators : List String :=
  ["error:", "failed:", "exception:", "traceback:",
   "could not", "unable to", "cannot find", "not found",
   "assertion error", "test failed", "tests failed"]

/-- Python `ind.replace(":", "")`. -/
def colonStrip (cs : List Char) : List Char := cs.filter (fun c => !(c == ':'))

/-- `parse_status_from_transcript(transcript) -> (status, summary)`. -/
def parse_status_from_transcript (transcript : String) : String × String :=
  match statusSearch transcript.data with
  | some b =>
    let status := if b then "passed" else "failed"
    let statusU := if b then "PASSED" else "FAILED"
    match statusLoop statusU.data none (splitOnNl transcript.data) with
    | some s => (status, String.mk s)
    | none =>
      (status, if b then "Agent completed successfully" else "Agent reported failure")
  | none =>
    let lower := lowerL transcript.data
    match failureIndicators.find? (fun ind => listContains lower ind.data) with
    | some ind =>
      match (splitOnNl transcript.data).find?
          (fun l => listContains (lowerL l) (colonStrip ind.data)) with
      | some l => ("failed", "ERROR: " ++ String.mk (stripChars (l.take 100)))
      | none => ("failed", "ERROR: Agent encountered issues (auto-detected)")
    | none => ("passed", "Agent completed (no explicit status found, assuming success)")

/-- The heading test `re.match(r'^##\s+[^#]', line)`: the line starts with
`##`, its third character is whitespace, and a fourth character exists that is
not `#` (any non-`#` character, whitespace included, satisfies `[^#]`; the
greedy `\s+` then backtracks to length one). -/
def isH2 (l : List Char) : Bool :=
  match l with
  | '#' :: '#' :: c :: d :: _ => isSpace c && !(d == '#')
  | _ => false

/-- `extract_markdown_sections(transcript)`: once a `##` heading is seen every
later line is kept, so the loop keeps exactly the suffix of lines from the
first `##` heading on. -/
def extract_markdown_sections (transcript : String) : String :=
  if transcript = "" then ""
  else
    let kept := (splitOnNl transcript.data).dropWhile (fun l => !(isH2 l))
    let content := stripChars (joinNl kept)
    if content.isEmpty then
      "## Agent Output\n\n" ++ transcript ++
        "\n\n> Note: No structured markdown sections found. Full transcript included."
    else String.mk content

/-- The packaged outcome of one worker output text:
`(status, summary, reportBody)` as produced by the completion handler's two
calls. -/
def extractOutcome (t : String) : String × String × String :=
  let p := parse_status_from_transcript t
  (p.1, p.2, extract_markdown_sections t)

/-! ## Dictionary and scan lemmas -/

theorem dictInsert_fresh {α : Type} (d : List (String × α)) (k : String) (v : α)
    (h : ∀ p ∈ d, ¬ p.1 = k) : dictInsert d k v = d ++ [(k, v)] := by
  have hany : d.any (fun p => p.1 == k) = false := by
    simp only [List.any_eq_false]
    intro p hp
    simpa using h p hp
  simp [dictInsert, hany]

theorem dictLookup_nil {α : Type} (k : String) : dictLookup ([] : List (String × α)) k = none := rfl

theorem dictLookup_not_mem {α : Type} (d : List (String × α)) (k : String)
    (h : ∀ p ∈ d, ¬ p.1 = k) : dictLookup d k = none := by
  unfold dictLookup
  have : d.find? (fun p => p.1 == k) = none := by
    rw [List.find?_eq_none]
    intro p hp
    simpa using h p hp
  rw [this]
  rfl

/-- Items whose `indexedOfItem` is `none` leave `task_calls` unchanged. -/
theorem processItem_taskCalls_none (st : ScanState) (item : ContentItem)
    (h : indexedOfItem item = none) : (processItem st item).taskCalls = st.taskCalls := by
  cases item with
  | toolUse id name sub prompt =>
    have hc : taskUseIndexed name sub prompt = false := by
      by_contra hc
      rw [Bool.not_eq_false] at hc
      simp [indexedOfItem, hc] at h
    simp [processItem, hc]
  | toolResult id c =>
    simp only [processItem]
    split <;> rfl
  | other => rfl

/-- The first content-item pass appends exactly the indexed invocations to
`task_calls`, provided their keys are fresh and pairwise distinct. -/
theorem foldl_processItem_taskCalls (items : List ContentItem) (st : ScanState)
    (hfresh : ∀ q ∈ items.filterMap indexedOfItem, ∀ p ∈ st.taskCalls, ¬ p.1 = q.1)
    (hnodup : ((items.filterMap indexedOfItem).map Prod.fst).Nodup) :
    (items.foldl processItem st).taskCalls = st.taskCalls ++ items.filterMap indexedOfItem := by
  induction items generalizing st with
  | nil => simp
  | cons item rest ih =>
    rw [List.foldl_cons]
    cases hI : indexedOfItem item with
    | none =>
      rw [List.filterMap_cons_none hI] at hfresh hnodup ⊢
      have hstep := processItem_taskCalls_none st item hI
      rw [ih (processItem st item) (by rw [hstep]; exact hfresh) hnodup, hstep]
    | some q0 =>
      rw [List.filterMap_cons_some hI] at hfresh hnodup ⊢
      cases item with
      | toolResult id c => simp [indexedOfItem] at hI
      | other => simp [indexedOfItem] at hI
      | toolUse id name sub prompt =>
        have hc : taskUseIndexed name sub prompt = true := by
          by_contra hc
          simp [indexedOfItem, Bool.not_eq_true] at hI
          exact hc hI.1
        have hq0 : q0 = (id, (⟨sub, prompt⟩ : TaskCall)) := by
          simp [indexedOfItem, hc] at hI
          exact hI.symm
        have hins : dictInsert st.taskCalls id ⟨sub, prompt⟩ =
            st.taskCalls ++ [(id, (⟨sub, prompt⟩ : TaskCall))] := by
          apply dictInsert_fresh
          intro p hp
          have := hfresh q0 (List.mem_cons_self _ _) p hp
          rw [hq0] at this
          simpa using this
        have hstep : (processItem st (ContentItem.toolUse id name sub prompt)).taskCalls =
            st.taskCalls ++ [(id, (⟨sub, prompt⟩ : TaskCall))] := by
          simp [processItem, hc, hins]
        have hnodup' : ((rest.filterMap indexedOfItem).map Prod.fst).Nodup :=
          (List.nodup_cons.mp (by simpa using hnodup)).2
        have hnotmem : q0.1 ∉ (rest.filterMap indexedOfItem).map Prod.fst :=
          (List.nodup_cons.mp (by simpa using hnodup)).1
        have hfresh' : ∀ q ∈ rest.filterMap indexedOfItem,
            ∀ p ∈ (processItem st (ContentItem.toolUse id name sub prompt)).taskCalls,
              ¬ p.1 = q.1 := by
          intro q hq p hp
          rw [hstep] at hp
          rcases List.mem_append.mp hp with hp1 | hp2
          · exact hfresh q (List.mem_cons_of_mem _ hq) p hp1
          · have : p = (id, (⟨sub, prompt⟩ : TaskCall)) := by simpa using hp2
            rw [this]
            intro hcontra
            have hid : id = q.1 := by simpa using hcontra
            apply hnotmem
            rw [hq0]
            show id ∈ _
            rw [hid]
            exact List.mem_map_of_mem Prod.fst hq
        rw [ih _ hfresh' hnodup', hstep, hq0]
        simp

/-- The `toolUseResult` pass never touches `task_calls`. -/
theorem foldl_processResultAgent_taskCalls (aid : String) (items : List ContentItem)
    (st : ScanState) :
    (items.foldl (processResultAgent aid) st).taskCalls = st.taskCalls := by
  induction items generalizing st with
  | nil => rfl
  | cons item rest ih =>
    rw [List.foldl_cons, ih]
    cases item with
    | toolUse a b c d => rfl
    | other => rfl
    | toolResult id c =>
      simp only [processResultAgent]
      split <;> rfl

theorem processEntry_taskCalls (st : ScanState) (e : Entry)
    (hfresh : ∀ q ∈ e.content.filterMap indexedOfItem, ∀ p ∈ st.taskCalls, ¬ p.1 = q.1)
    (hnodup : ((e.content.filterMap indexedOfItem).map Prod.fst).Nodup) :
    (processEntry st e).taskCalls = st.taskCalls ++ e.content.filterMap indexedOfItem := by
  obtain ⟨content, air⟩ := e
  cases air with
  | none => exact foldl_processItem_taskCalls content st hfresh hnodup
  | some aid =>
    show (if aid == "" || content.isEmpty then content.foldl processItem st
      else content.foldl (processResultAgent aid) (content.foldl processItem st)).taskCalls = _
    split
    · exact foldl_processItem_taskCalls content st hfresh hnodup
    · rw [foldl_processResultAgent_taskCalls]
      exact foldl_processItem_taskCalls content st hfresh hnodup

theorem scanLog_taskCalls_aux (log : List (Option Entry)) (st : ScanState)
    (hfresh : ∀ q ∈ indexedSpawns log, ∀ p ∈ st.taskCalls, ¬ p.1 = q.1)
    (hnodup : ((indexedSpawns log).map Prod.fst).Nodup) :
    (log.foldl scanLine st).taskCalls = st.taskCalls ++ indexedSpawns log := by
  induction log generalizing st with
  | nil => simp [indexedSpawns]
  | cons line rest ih =>
    cases line with
    | none =>
      rw [List.foldl_cons]
      exact ih st hfresh hnodup
    | some e =>
      rw [List.foldl_cons]
      have hsplit : indexedSpawns (some e :: rest) =
          e.content.filterMap indexedOfItem ++ indexedSpawns rest := rfl
      rw [hsplit] at hfresh hnodup ⊢
      rw [List.map_append, List.nodup_append] at hnodup
      obtain ⟨hnodE, hnodR, hdisj⟩ := hnodup
      have hstep := processEntry_taskCalls st e
        (fun q hq p hp => hfresh q (List.mem_append_left _ hq) p hp) hnodE
      have hfresh' : ∀ q ∈ indexedSpawns rest,
          ∀ p ∈ (processEntry st e).taskCalls, ¬ p.1 = q.1 := by
        intro q hq p hp
        rw [hstep] at hp
        rcases List.mem_append.mp hp with hp1 | hp2
        · exact hfresh q (List.mem_append_right _ hq) p hp1
        · intro hcontra
          exact hdisj (hcontra ▸ List.mem_map_of_mem Prod.fst hp2)
            (List.mem_map_of_mem Prod.fst hq)
      have hline : scanLine st (some e) = processEntry st e := rfl
      rw [hline, ih (processEntry st e) hfresh' hnodR, hstep, List.append_assoc]

/-- With pairwise-distinct correlation tokens (the data-model invariant) the
scan's `task_calls` dict is exactly the list of indexed invocations in scan
order. -/
theorem scanLog_taskCalls (log : List (Option Entry))
    (hnodup : ((indexedSpawns log).map Prod.fst).Nodup) :
    (scanLog log).taskCalls = indexedSpawns log := by
  have h := scanLog_taskCalls_aux log ⟨[], []⟩ (by intro q hq p hp; simp at hp) hnodup
  simpa [scanLog] using h

theorem resolveScan_empty (st : ScanState) (aid : String) (h : st.taskCalls = []) :
    resolveScan st aid = emptyCall := by
  simp only [resolveScan, h]
  split
  · split
    · rename_i tc heq
      split at heq
      · exact absurd heq (by simp)
      · rw [dictLookup_nil] at heq
        exact absurd heq (by simp)
    · rfl
  · rfl

/-! ## Correlator claims -/

/-- C2.  `find_task_call_for_agent` never raises: a missing or unreadable
parent log yields the empty record, and so does any log in which no
invocation is indexed — whether or not some completion matches the queried
result identifier — with empty role and empty input text, exactly as if no
match were found.  Totality for every other input is witnessed by the
function being a Lean definition. -/
theorem resolve_returns_empty_on_failure :
    (∀ aid : String, find_task_call_for_agent none aid = emptyCall) ∧
    (∀ (log : List (Option Entry)) (aid : String), indexedSpawns log = [] →
      find_task_call_for_agent (some log) aid = emptyCall) := by
  constructor
  · intro aid
    rfl
  · intro log aid h
    have htc : (scanLog log).taskCalls = [] := by
      rw [scanLog_taskCalls log (by rw [h]; simp), h]
    exact resolveScan_empty _ _ htc

/-- Witness for C2 at a missing file and at a log whose only entries are a
completion acknowledgement and a malformed line (no indexed invocation). -/
theorem resolve_returns_empty_on_failure_witness :
    find_task_call_for_agent none "agentA" = emptyCall ∧
    find_task_call_for_agent
      (some [some ⟨[ContentItem.toolResult "t1" "agentA done"], none⟩, none])
      "agentA" = emptyCall := by
  constructor
  · exact resolve_returns_empty_on_failure.1 "agentA"
  · exact resolve_returns_empty_on_failure.2
      [some ⟨[ContentItem.toolResult "t1" "agentA done"], none⟩, none] "agentA" (by decide)

/-- C3.  When no completion link in the scanned log matches the queried
result identifier, `find_task_call_for_agent` falls back to the most recently
scanned indexed invocation; when no invocation is indexed at all it returns
the empty record.  Correlation tokens are assumed pairwise distinct (the
log's own data-model invariant). -/
theorem resolve_no_link_returns_last (log : List (Option Entry)) (aid : String)
    (hnodup : ((indexedSpawns log).map Prod.fst).Nodup)
    (hnomatch : ∀ p ∈ (scanLog log).toolResults, listContains p.2.data aid.data = false) :
    find_task_call_for_agent (some log) aid = lastIndexed log ∧
    (indexedSpawns log = [] → find_task_call_for_agent (some log) aid = emptyCall) := by
  have hfind : (scanLog log).toolResults.find?
      (fun p => listContains p.2.data aid.data) = none := by
    rw [List.find?_eq_none]
    intro p hp
    simp [hnomatch p hp]
  have hmatched : (if aid == "" then (none : Option String)
      else ((scanLog log).toolResults.find?
        (fun p => listContains p.2.data aid.data)).map Prod.fst) = none := by
    rw [hfind]
    split <;> rfl
  have hmain : find_task_call_for_agent (some log) aid = lastIndexed log := by
    show resolveScan (scanLog log) aid = lastIndexed log
    simp only [resolveScan]
    rw [hmatched, scanLog_taskCalls log hnodup]
    rfl
  refine ⟨hmain, fun h => ?_⟩
  rw [hmain, lastIndexed, h]
  rfl

/-- Witness for C3: two indexed invocations, one completion link that does not
contain the queried identifier; the second (most recent) invocation is
returned. -/
theorem resolve_no_link_returns_last_witness :
    find_task_call_for_agent
      (some [some ⟨[ContentItem.toolUse "t1" "Task" "backend-toolbox:dev"
                      "TASK_ID: a reportType: r1 "], none⟩,
             some ⟨[ContentItem.toolUse "t2" "Task" "backend-toolbox:qa"
                      "TASK_ID: a reportType: r2 "], none⟩,
             some ⟨[ContentItem.toolResult "t1" "worker one finished"], none⟩])
      "agentZ" = ⟨"backend-toolbox:qa", "TASK_ID: a reportType: r2 "⟩ := by
  have h := (resolve_no_link_returns_last
    [some ⟨[ContentItem.toolUse "t1" "Task" "backend-toolbox:dev"
              "TASK_ID: a reportType: r1 "], none⟩,
     some ⟨[ContentItem.toolUse "t2" "Task" "backend-toolbox:qa"
              "TASK_ID: a reportType: r2 "], none⟩,
     some ⟨[ContentItem.toolResult "t1" "worker one finished"], none⟩]
    "agentZ" (by decide) (by decide)).1
  rw [h]
  decide

/-- C10.  When the first completion token in scan order whose result text
contains the queried identifier has no indexed invocation, the correlator
does not examine later matching tokens: it falls back immediately to the most
recently scanned indexed invocation (the empty record when none exists),
even if a later matching completion token is indexed. -/
theorem resolve_first_match_unindexed (log : List (Option Entry)) (aid : String)
    (p : String × String)
    (hnodup : ((indexedSpawns log).map Prod.fst).Nodup)
    (hfind : (scanLog log).toolResults.find?
      (fun q => listContains q.2.data aid.data) = some p)
    (hunindexed : ∀ q ∈ indexedSpawns log, ¬ q.1 = p.1) :
    find_task_call_for_agent (some log) aid = lastIndexed log := by
  have htc := scanLog_taskCalls log hnodup
  have hlook : dictLookup (scanLog log).taskCalls p.1 = none := by
    rw [htc]
    exact dictLookup_not_mem _ _ hunindexed
  show resolveScan (scanLog log) aid = lastIndexed log
  simp only [resolveScan, hfind, Option.map_some']
  by_cases ha : (aid == "") = true
  · simp only [ha, if_true]
    rw [htc]
    rfl
  · simp only [ha, if_false, Bool.false_eq_true]
    have hinner : (if p.1 == "" then none
        else dictLookup (scanLog log).taskCalls p.1) = none := by
      rw [hlook]
      split <;> rfl
    rw [hinner, htc]
    rfl

/-! ### C1: a batch of spawns whose completions arrive in arbitrary order -/

/-- One spawned invocation of a batch: its correlation token, declared role,
input text, the result identifier of the worker it spawned, and the result
text of the completion acknowledgement that records the link. -/
structure SpawnSpec where
  tok : String
  sub : String
  prompt : String
  rid : String
  rtxt : String
  deriving DecidableEq, Repr

/-- The log line of a spawn action. -/
def spawnLine (s : SpawnSpec) : Option Entry :=
  some ⟨[ContentItem.toolUse s.tok "Task" s.sub s.prompt], none⟩

/-- The log line of a completion acknowledgement. -/
def completionLine (c : String × String) : Option Entry :=
  some ⟨[ContentItem.toolResult c.1 c.2], none⟩

/-- A parent log holding a batch of spawns followed by their completion
acknowledgements in an arbitrary order. -/
def batchLog (spawns : List SpawnSpec) (completions : List (String × String)) :
    List (Option Entry) :=
  spawns.map spawnLine ++ completions.map completionLine

/-- The `task_calls` entry a spawn produces. -/
def spawnCallPair (s : SpawnSpec) : String × TaskCall := (s.tok, ⟨s.sub, s.prompt⟩)

theorem foldl_spawnLines (spawns : List SpawnSpec) (st : ScanState)
    (hidx : ∀ s ∈ spawns, taskUseIndexed "Task" s.sub s.prompt = true)
    (hfresh : ∀ s ∈ spawns, ∀ p ∈ st.taskCalls, ¬ p.1 = s.tok)
    (hnodup : (spawns.map SpawnSpec.tok).Nodup) :
    (spawns.map spawnLine).foldl scanLine st =
      ⟨st.taskCalls ++ spawns.map spawnCallPair, st.toolResults⟩ := by
  induction spawns generalizing st with
  | nil => simp
  | cons s rest ih =>
    have hstep : scanLine st (spawnLine s) =
        ⟨st.taskCalls ++ [spawnCallPair s], st.toolResults⟩ := by
      show processEntry st ⟨[ContentItem.toolUse s.tok "Task" s.sub s.prompt], none⟩ = _
      simp only [processEntry, List.foldl_cons, List.foldl_nil, processItem,
        hidx s (List.mem_cons_self _ _), if_true]
      rw [dictInsert_fresh _ _ _ (fun p hp => hfresh s (List.mem_cons_self _ _) p hp)]
      rfl
    have hnodup' : (rest.map SpawnSpec.tok).Nodup :=
      (List.nodup_cons.mp (by simpa using hnodup)).2
    have hnotmem : s.tok ∉ rest.map SpawnSpec.tok :=
      (List.nodup_cons.mp (by simpa using hnodup)).1
    have hfresh' : ∀ u ∈ rest,
        ∀ p ∈ (⟨st.taskCalls ++ [spawnCallPair s], st.toolResults⟩ : ScanState).taskCalls,
          ¬ p.1 = u.tok := by
      intro u hu p hp
      rcases List.mem_append.mp hp with hp1 | hp2
      · exact hfresh u (List.mem_cons_of_mem _ hu) p hp1
      · have : p = spawnCallPair s := by simpa using hp2
        rw [this]
        show ¬ s.tok = u.tok
        intro hcontra
        exact hnotmem (hcontra ▸ List.mem_map_of_mem SpawnSpec.tok hu)
    rw [List.map_cons, List.foldl_cons, hstep,
      ih _ (fun u hu => hidx u (List.mem_cons_of_mem _ hu)) hfresh' hnodup']
    simp

theorem foldl_completionLines (cs : List (String × String)) (st : ScanState)
    (hne : ∀ c ∈ cs, ¬ c.1 = "")
    (hfresh : ∀ c ∈ cs, ∀ p ∈ st.toolResults, ¬ p.1 = c.1)
    (hnodup : (cs.map Prod.fst).Nodup) :
    (cs.map completionLine).foldl scanLine st =
      ⟨st.taskCalls, st.toolResults ++ cs⟩ := by
  induction cs generalizing st with
  | nil => simp
  | cons c rest ih =>
    have hcne : (c.1 == "") = false := by
      simpa using hne c (List.mem_cons_self _ _)
    have hstep : scanLine st (completionLine c) =
        ⟨st.taskCalls, st.toolResults ++ [c]⟩ := by
      show processEntry st ⟨[ContentItem.toolResult c.1 c.2], none⟩ = _
      simp only [processEntry, List.foldl_cons, List.foldl_nil, processItem, hcne,
        Bool.false_eq_true, if_false]
      rw [dictInsert_fresh _ _ _ (fun p hp => hfresh c (List.mem_cons_self _ _) p hp)]
    have hnodup' : (rest.map Prod.fst).Nodup :=
      (List.nodup_cons.mp (by simpa using hnodup)).2
    have hnotmem : c.1 ∉ rest.map Prod.fst :=
      (List.nodup_cons.mp (by simpa using hnodup)).1
    have hfresh' : ∀ d ∈ rest,
        ∀ p ∈ (⟨st.taskCalls, st.toolResults ++ [c]⟩ : ScanState).toolResults,
          ¬ p.1 = d.1 := by
      intro d hd p hp
      rcases List.mem_append.mp hp with hp1 | hp2
      · exact hfresh d (List.mem_cons_of_mem _ hd) p hp1
      · have : p = c := by simpa using hp2
        rw [this]
        intro hcontra
        exact hnotmem (hcontra ▸ List.mem_map_of_mem Prod.fst hd)
    rw [List.map_cons, List.foldl_cons, hstep,
      ih _ (fun d hd => hne d (List.mem_cons_of_mem _ hd)) hfresh' hnodup']
    simp

theorem scanLog_batch (spawns : List SpawnSpec) (cs : List (String × String))
    (hidx : ∀ s ∈ spawns, taskUseIndexed "Task" s.sub s.prompt = true)
    (hnodupS : (spawns.map SpawnSpec.tok).Nodup)
    (hnodupC : (cs.map Prod.fst).Nodup)
    (hneC : ∀ c ∈ cs, ¬ c.1 = "") :
    scanLog (batchLog spawns cs) = ⟨spawns.map spawnCallPair, cs⟩ := by
  show (spawns.map spawnLine ++ cs.map completionLine).foldl scanLine ⟨[], []⟩ = _
  rw [List.foldl_append,
    foldl_spawnLines spawns ⟨[], []⟩ hidx (by intro s hs p hp; simp at hp) hnodupS,
    foldl_completionLines cs _ hneC (by intro c hc p hp; simp at hp) hnodupC]
  simp

theorem dictLookup_spawnCalls (s : SpawnSpec) :
    ∀ spawns : List SpawnSpec, s ∈ spawns → (spawns.map SpawnSpec.tok).Nodup →
      dictLookup (spawns.map spawnCallPair) s.tok = some ⟨s.sub, s.prompt⟩ := by
  intro spawns
  induction spawns with
  | nil => intro hs _; simp at hs
  | cons t rest ih =>
    intro hs hnodup
    rcases List.mem_cons.mp hs with h | h
    · subst h
      unfold dictLookup
      rw [List.map_cons, List.find?_cons_of_pos _ (by simp [spawnCallPair])]
      rfl
    · have hnotmem : t.tok ∉ rest.map SpawnSpec.tok :=
        (List.nodup_cons.mp (by simpa using hnodup)).1
      have hne : (t.tok == s.tok) = false := by
        simp only [beq_eq_false_iff_ne, ne_eq]
        intro hcontra
        exact hnotmem (hcontra ▸ List.mem_map_of_mem SpawnSpec.tok h)
      unfold dictLookup
      rw [List.map_cons, List.find?_cons_of_neg _ (by simp [spawnCallPair, hne])]
      exact ih h (List.nodup_cons.mp (by simpa using hnodup)).2

theorem find?_key_of_all (pred : String × String → Bool) (tok : String) :
    ∀ l : List (String × String),
      (∃ c ∈ l, pred c = true) → (∀ c ∈ l, pred c = true → c.1 = tok) →
      ∃ txt, l.find? pred = some (tok, txt) := by
  intro l
  induction l with
  | nil => intro hex _; simp at hex
  | cons c rest ih =>
    intro hex hall
    by_cases hc : pred c = true
    · refine ⟨c.2, ?_⟩
      rw [List.find?_cons_of_pos _ hc]
      have h1 : c.1 = tok := hall c (List.mem_cons_self _ _) hc
      rw [← h1]
    · rw [List.find?_cons_of_neg _ (by simpa using hc)]
      apply ih
      · rcases hex with ⟨d, hd, hpd⟩
        rcases List.mem_cons.mp hd with rfl | hd'
        · exact absurd hpd hc
        · exact ⟨d, hd', hpd⟩
      · exact fun d hd hpd => hall d (List.mem_cons_of_mem _ hd) hpd

/-- C1.  For a parent log containing a batch of N ≥ 2 indexed invocations of
the expected role family, each with a distinct correlation token and a
distinct completion link (each worker's result identifier occurring in
exactly its own completion's result text), `find_task_call_for_agent` applied
to the i-th result identifier returns the i-th invocation's record, for every
order in which the completions appear in the log; and two identifiers of
invocations with different input texts never resolve to the same record. -/
theorem resolve_distinct_links (spawns : List SpawnSpec) (cs : List (String × String))
    (hN : 2 ≤ spawns.length)
    (hperm : cs.Perm (spawns.map (fun s => (s.tok, s.rtxt))))
    (hnodup : (spawns.map SpawnSpec.tok).Nodup)
    (hidx : ∀ s ∈ spawns, taskUseIndexed "Task" s.sub s.prompt = true)
    (htok : ∀ s ∈ spawns, ¬ s.tok = "")
    (hrid : ∀ s ∈ spawns, ¬ s.rid = "")
    (hsep : ∀ s ∈ spawns, ∀ u ∈ spawns,
      (listContains u.rtxt.data s.rid.data = true ↔ s.tok = u.tok)) :
    (∀ s ∈ spawns, find_task_call_for_agent (some (batchLog spawns cs)) s.rid
       = ⟨s.sub, s.prompt⟩) ∧
    (∀ s ∈ spawns, ∀ u ∈ spawns, ¬ s.prompt = u.prompt →
       ¬ find_task_call_for_agent (some (batchLog spawns cs)) s.rid
         = find_task_call_for_agent (some (batchLog spawns cs)) u.rid) := by
  have hmapfst : (spawns.map (fun s => (s.tok, s.rtxt))).map Prod.fst
      = spawns.map SpawnSpec.tok := by
    rw [List.map_map]
    rfl
  have hnodupC : (cs.map Prod.fst).Nodup := by
    have h1 := (hperm.map Prod.fst).nodup_iff
    rw [hmapfst] at h1
    exact h1.mpr hnodup
  have hneC : ∀ c ∈ cs, ¬ c.1 = "" := by
    intro c hc
    rcases List.mem_map.mp (hperm.mem_iff.mp hc) with ⟨u, hu, hcu⟩
    rw [← hcu]
    exact htok u hu
  have hscan := scanLog_batch spawns cs hidx hnodup hnodupC hneC
  have hmain : ∀ s ∈ spawns,
      find_task_call_for_agent (some (batchLog spawns cs)) s.rid = ⟨s.sub, s.prompt⟩ := by
    intro s hs
    show resolveScan (scanLog (batchLog spawns cs)) s.rid = _
    rw [hscan]
    have hex : ∃ c ∈ cs, listContains c.2.data s.rid.data = true :=
      ⟨(s.tok, s.rtxt), hperm.mem_iff.mpr (List.mem_map_of_mem _ hs),
        (hsep s hs s hs).mpr rfl⟩
    have hall : ∀ c ∈ cs, listContains c.2.data s.rid.data = true → c.1 = s.tok := by
      intro c hc hpc
      rcases List.mem_map.mp (hperm.mem_iff.mp hc) with ⟨u, hu, hcu⟩
      rw [← hcu] at hpc ⊢
      exact ((hsep s hs u hu).mp hpc).symm
    obtain ⟨txt, hfind⟩ :=
      find?_key_of_all (fun c => listContains c.2.data s.rid.data) s.tok cs hex hall
    have hrid' : (s.rid == "") = false := by simpa using hrid s hs
    have htok' : (s.tok == "") = false := by simpa using htok s hs
    simp only [resolveScan, hrid', Bool.false_eq_true, if_false, hfind,
      Option.map_some', htok', dictLookup_spawnCalls s spawns hs hnodup]
  refine ⟨hmain, fun s hs u hu hne heq => ?_⟩
  rw [hmain s hs, hmain u hu] at heq
  exact hne (congrArg TaskCall.prompt heq)

/-- Witness for C1: two invocations whose completions appear in reversed
order; each identifier resolves to its own invocation. -/
theorem resolve_distinct_links_witness :
    find_task_call_for_agent (some (batchLog
        [⟨"t1", "backend-toolbox:dev", "TASK_ID: a reportType: r1 ", "agentA", "done agentA"⟩,
         ⟨"t2", "backend-toolbox:qa", "TASK_ID: a reportType: r2 ", "agentB", "done agentB"⟩]
        [("t2", "done agentB"), ("t1", "done agentA")])) "agentA"
      = ⟨"backend-toolbox:dev", "TASK_ID: a reportType: r1 "⟩ ∧
    find_task_call_for_agent (some (batchLog
        [⟨"t1", "backend-toolbox:dev", "TASK_ID: a reportType: r1 ", "agentA", "done agentA"⟩,
         ⟨"t2", "backend-toolbox:qa", "TASK_ID: a reportType: r2 ", "agentB", "done agentB"⟩]
        [("t2", "done agentB"), ("t1", "done agentA")])) "agentB"
      = ⟨"backend-toolbox:qa", "TASK_ID: a reportType: r2 "⟩ := by
  have h := (resolve_distinct_links
    [⟨"t1", "backend-toolbox:dev", "TASK_ID: a reportType: r1 ", "agentA", "done agentA"⟩,
     ⟨"t2", "backend-toolbox:qa", "TASK_ID: a reportType: r2 ", "agentB", "done agentB"⟩]
    [("t2", "done agentB"), ("t1", "done agentA")]
    (by decide) (by decide) (by decide) (by decide) (by decide) (by decide) (by decide)).1
  exact ⟨h ⟨"t1", "backend-toolbox:dev", "TASK_ID: a reportType: r1 ", "agentA", "done agentA"⟩
      (by decide),
    h ⟨"t2", "backend-toolbox:qa", "TASK_ID: a reportType: r2 ", "agentB", "done agentB"⟩
      (by decide)⟩

/-! ## Outcome-extractor claims -/

/-- Helper: every branch of `parse_status_from_transcript` returns a status
in `{passed, failed}`. -/
theorem parse_status_fst (t : String) :
    (parse_status_from_transcript t).1 = "passed" ∨
    (parse_status_from_transcript t).1 = "failed" := by
  cases hs : statusSearch t.data with
  | some b =>
    simp only [parse_status_from_transcript, hs]
    split
    · cases b <;> simp
    · cases b <;> simp
  | none =>
    cases hf : failureIndicators.find? (fun ind => listContains (lowerL t.data) ind.data) with
    | some ind =>
      cases hl : (splitOnNl t.data).find?
          (fun li => listContains (lowerL li) (colonStrip ind.data)) with
      | some l => simp [parse_status_from_transcript, hs, hf, hl]
      | none => simp [parse_status_from_transcript, hs, hf, hl]
    | none => simp [parse_status_from_transcript, hs, hf]

/-- C4.  Status derivation is a strict priority chain: an explicit
case-insensitive `STATUS: PASSED`/`STATUS: FAILED` marker anywhere in the
text determines the status; failing that, the presence of any fixed failure
phrase yields `failed`; with neither signal the result is `passed` with the
fixed default summary. -/
theorem status_priority (t : String) :
    (∀ b : Bool, statusSearch t.data = some b →
      (parse_status_from_transcript t).1 = (if b then "passed" else "failed")) ∧
    (statusSearch t.data = none →
      (∃ ind ∈ failureIndicators, listContains (lowerL t.data) ind.data = true) →
      (parse_status_from_transcript t).1 = "failed") ∧
    (statusSearch t.data = none →
      (∀ ind ∈ failureIndicators, listContains (lowerL t.data) ind.data = false) →
      parse_status_from_transcript t =
        ("passed", "Agent completed (no explicit status found, assuming success)")) := by
  refine ⟨?_, ?_, ?_⟩
  · intro b hb
    simp only [parse_status_from_transcript, hb]
    split
    · cases b <;> simp
    · cases b <;> simp
  · intro hnone hex
    have hsome : (failureIndicators.find?
        (fun ind => listContains (lowerL t.data) ind.data)).isSome = true :=
      List.find?_isSome.mpr hex
    rcases Option.isSome_iff_exists.mp hsome with ⟨ind, hind⟩
    cases hl : (splitOnNl t.data).find?
        (fun li => listContains (lowerL li) (colonStrip ind.data)) with
    | some l => simp [parse_status_from_transcript, hnone, hind, hl]
    | none => simp [parse_status_from_transcript, hnone, hind, hl]
  · intro hnone hall
    have hfind : failureIndicators.find?
        (fun ind => listContains (lowerL t.data) ind.data) = none := by
      rw [List.find?_eq_none]
      intro ind hmem
      simp [hall ind hmem]
    simp [parse_status_from_transcript, hnone, hfind]

/-- Witness for C4 at each of the three priority levels. -/
theorem status_priority_witness :
    (parse_status_from_transcript "STATUS: FAILED").1 = "failed" ∧
    (parse_status_from_transcript "hit error: boom").1 = "failed" ∧
    parse_status_from_transcript "all good" =
      ("passed", "Agent completed (no explicit status found, assuming success)") := by
  refine ⟨?_, ?_, ?_⟩
  · have h := (status_priority "STATUS: FAILED").1 false (by decide)
    simpa using h
  · exact (status_priority "hit error: boom").2.1 (by decide) (by decide)
  · exact (status_priority "all good").2.2 (by decide) (by decide)

/-- C9.  The outcome extractor is deterministic (it is a pure function:
applying it twice to the same text gives the same status, summary and report
body) and total: for every input text, including the empty string, it returns
a value, whose status moreover is always one of `passed`/`failed`. -/
theorem outcome_deterministic_total (t : String) :
    ((extractOutcome t).1 = "passed" ∨ (extractOutcome t).1 = "failed") ∧
    extractOutcome t = extractOutcome t := by
  exact ⟨parse_status_fst t, rfl⟩

/-- C8.  With no explicit STATUS marker and some fixed failure phrase
present, the status is `failed` and the summary is the first line containing
the colon-stripped phrase, truncated to 100 characters, stripped, and
prefixed `ERROR: `; the generic fallback is returned when no single line
isolates the phrase. -/
theorem heuristic_failure_summary (t : String) (ind : String)
    (hns : statusSearch t.data = none)
    (hfind : failureIndicators.find?
      (fun i => listContains (lowerL t.data) i.data) = some ind) :
    (∀ l, (splitOnNl t.data).find?
        (fun li => listContains (lowerL li) (colonStrip ind.data)) = some l →
      parse_status_from_transcript t =
        ("failed", "ERROR: " ++ String.mk (stripChars (l.take 100)))) ∧
    ((splitOnNl t.data).find?
        (fun li => listContains (lowerL li) (colonStrip ind.data)) = none →
      parse_status_from_transcript t =
        ("failed", "ERROR: Agent encountered issues (auto-detected)")) := by
  constructor
  · intro l hl
    simp [parse_status_from_transcript, hns, hfind, hl]
  · intro hl
    simp [parse_status_from_transcript, hns, hfind, hl]

/-- Witness for C8: the phrase `error:` triggers on the whole text; the first
line containing the colon-stripped phrase becomes the summary. -/
theorem heuristic_failure_summary_witness :
    parse_status_from_transcript "oops\nerror: bad thing happened" =
      ("failed", "ERROR: error: bad thing happened") := by
  have h := (heuristic_failure_summary "oops\nerror: bad thing happened" "error:"
    (by decide) (by decide)).1 "error: bad thing happened".data (by decide)
  rw [h]
  decide

/-- C5.  The report body is empty only for empty input: on empty input the
result is empty; when the text is non-empty and has no second-level heading
line the whole raw text is wrapped under the generated `## Agent Output`
heading with the explanatory note; and a non-empty input never produces an
empty body. -/
theorem report_body_empty_iff (t : String) :
    (extract_markdown_sections "" = "") ∧
    (¬ t = "" → (∀ l ∈ splitOnNl t.data, isH2 l = false) →
      extract_markdown_sections t =
        "## Agent Output\n\n" ++ t ++
          "\n\n> Note: No structured markdown sections found. Full transcript included.") ∧
    (¬ t = "" → ¬ extract_markdown_sections t = "") := by
  refine ⟨rfl, ?_, ?_⟩
  · intro ht hno
    have hkept : (splitOnNl t.data).dropWhile (fun l => !(isH2 l)) = [] := by
      rw [List.dropWhile_eq_nil_iff]
      intro l hl
      simp [hno l hl]
    simp only [extract_markdown_sections, if_neg ht, hkept]
    rfl
  · intro ht hcontra
    simp only [extract_markdown_sections, if_neg ht] at hcontra
    by_cases hc : (stripChars (joinNl
        ((splitOnNl t.data).dropWhile (fun l => !(isH2 l))))).isEmpty = true
    · rw [if_pos hc] at hcontra
      have hlen := congrArg String.length hcontra
      rw [String.length_append, String.length_append] at hlen
      have h1 : ("## Agent Output\n\n" : String).length = 17 := by decide
      have h2 : ("\n\n> Note: No structured markdown sections found. Full transcript included." : String).length = 74 := by decide
      have h3 : ("" : String).length = 0 := by decide
      rw [h1, h2, h3] at hlen
      omega
    · rw [if_neg hc] at hcontra
      rw [String.ext_iff] at hcontra
      have : (stripChars (joinNl
          ((splitOnNl t.data).dropWhile (fun l => !(isH2 l))))).isEmpty = true := by
        rw [show (String.mk (stripChars (joinNl
          ((splitOnNl t.data).dropWhile (fun l => !(isH2 l)))))).data
            = stripChars (joinNl ((splitOnNl t.data).dropWhile (fun l => !(isH2 l)))) from rfl]
          at hcontra
        rw [hcontra]
        rfl
      exact hc this

/-- Witness for C5: empty input, a heading-free input, and a structured
input. -/
theorem report_body_empty_iff_witness :
    extract_markdown_sections "" = "" ∧
    extract_markdown_sections "plain words" =
      "## Agent Output\n\nplain words\n\n> Note: No structured markdown sections found. Full transcript included." ∧
    ¬ extract_markdown_sections "## A\nbody" = "" := by
  refine ⟨(report_body_empty_iff "x").1, ?_,
    (report_body_empty_iff "## A\nbody").2.2 (by decide)⟩
  have h := (report_body_empty_iff "plain words").2.1 (by decide) (by decide)
  rw [h]
  decide

/-! ## Workflow-context claims -/

theorem listContains_of_isPrefixOf (pat s : List Char) (h : pat.isPrefixOf s = true) :
    listContains s pat = true := by
  cases s with
  | nil =>
    cases pat with
    | nil => rfl
    | cons c cs => simp [List.isPrefixOf] at h
  | cons c rest => simp [listContains, h]

theorem listContains_dropWhile (p : Char → Bool) (pat : List Char) :
    ∀ s : List Char, listContains (s.dropWhile p) pat = true →
      listContains s pat = true := by
  intro s
  induction s with
  | nil => exact fun h => h
  | cons c rest ih =>
    intro h
    by_cases hc : p c = true
    · rw [List.dropWhile_cons_of_pos hc] at h
      simp [listContains, ih h]
    · rwa [List.dropWhile_cons_of_neg hc] at h

theorem listContains_drop (pat : List Char) (n : Nat) :
    ∀ s : List Char, listContains (s.drop n) pat = true →
      listContains s pat = true := by
  induction n with
  | zero => intro s h; simpa using h
  | succ m ih =>
    intro s h
    cases s with
    | nil => simpa using h
    | cons c rest =>
      rw [List.drop_succ_cons] at h
      simp [listContains, ih rest h]

theorem taskIdSearch_some_contains :
    ∀ s : List Char, taskIdSearch s ≠ none →
      listContains s "TASK_ID:".data = true := by
  intro s
  induction s with
  | nil => intro h; simp [taskIdSearch] at h
  | cons c rest ih =>
    intro h
    by_cases hp : "TASK_ID:".data.isPrefixOf (c :: rest) = true
    · exact listContains_of_isPrefixOf _ _ hp
    · rw [taskIdSearch, if_neg hp] at h
      simp [listContains, ih h]

theorem inlineReportSearch_some_contains :
    ∀ s : List Char, inlineReportSearch s ≠ none →
      listContains s "reportType:".data = true := by
  intro s
  induction s with
  | nil => intro h; simp [inlineReportSearch] at h
  | cons c rest ih =>
    intro h
    by_cases hp : "reportType:".data.isPrefixOf (c :: rest) = true
    · exact listContains_of_isPrefixOf _ _ hp
    · rw [inlineReportSearch, if_neg hp] at h
      simp [listContains, ih h]

theorem headingAt_some_contains (cs g : List Char) (h : headingAt cs = some g) :
    listContains cs "reportType:".data = true := by
  by_cases hpr : "reportType:".data.isPrefixOf
      ((((cs.drop 2).dropWhile isSpace).drop 6).dropWhile isSpace) = true
  · apply listContains_drop _ 2 cs
    apply listContains_dropWhile isSpace _ (cs.drop 2)
    apply listContains_drop _ 6 ((cs.drop 2).dropWhile isSpace)
    apply listContains_dropWhile isSpace _ (((cs.drop 2).dropWhile isSpace).drop 6)
    exact listContains_of_isPrefixOf _ _ hpr
  · exfalso
    have hpr' : "reportType:".data.isPrefixOf
        ((((cs.drop 2).dropWhile isSpace).drop 6).dropWhile isSpace) = false :=
      Bool.eq_false_iff.mpr hpr
    have hnone : headingAt cs = none := by
      simp only [headingAt, hpr', Bool.false_eq_true, if_false]
      split
      · split
        · split
          · rfl
          · rfl
        · rfl
      · rfl
    rw [hnone] at h
    exact absurd h (by simp)

theorem headingReportSearch_some_contains :
    ∀ s : List Char, headingReportSearch s ≠ none →
      listContains s "reportType:".data = true := by
  intro s
  induction s with
  | nil => intro h; simp [headingReportSearch] at h
  | cons c rest ih =>
    intro h
    cases hA : headingAt (c :: rest) with
    | some g => exact headingAt_some_contains _ g hA
    | none =>
      rw [headingReportSearch, hA] at h
      simp [listContains, ih h]

/-- C6.  When both a heading-scoped `reportType` declaration and an inline
mention are present, the heading-scoped token wins; and a text containing no
`TASK_ID:` (resp. no `reportType:`) marker yields an absent `taskId`
(resp. `reportType`), never an error. -/
theorem context_precedence_and_absence (p : String) :
    (∀ g w, headingReportSearch p.data = some g → inlineReportSearch p.data = some w →
      (parse_workflow_context p).reportType = some (String.mk g)) ∧
    (listContains p.data "TASK_ID:".data = false →
      (parse_workflow_context p).taskId = none) ∧
    (listContains p.data "reportType:".data = false →
      (parse_workflow_context p).reportType = none) := by
  refine ⟨?_, ?_, ?_⟩
  · intro g w hg _
    simp [parse_workflow_context, hg]
  · intro habs
    have hnone : taskIdSearch p.data = none := by
      by_contra hne
      have := taskIdSearch_some_contains p.data hne
      rw [habs] at this
      exact Bool.false_ne_true this
    simp [parse_workflow_context, hnone]
  · intro habs
    have h1 : headingReportSearch p.data = none := by
      by_contra hne
      have := headingReportSearch_some_contains p.data hne
      rw [habs] at this
      exact Bool.false_ne_true this
    have h2 : inlineReportSearch p.data = none := by
      by_contra hne
      have := inlineReportSearch_some_contains p.data hne
      rw [habs] at this
      exact Bool.false_ne_true this
    simp [parse_workflow_context, h1, h2]

/-- Witness for C6: a prompt with an earlier inline mention and a
heading-scoped declaration, and a prompt with no markers. -/
theorem context_precedence_and_absence_witness :
    (parse_workflow_context
        "reportType: inline\n## Output\nreportType: scoped x").reportType
      = some "scoped" ∧
    (parse_workflow_context "plain text").taskId = none ∧
    (parse_workflow_context "plain text").reportType = none := by
  refine ⟨?_, ?_, ?_⟩
  · have h := (context_precedence_and_absence
        "reportType: inline\n## Output\nreportType: scoped x").1
      "scoped".data "inline".data (by decide) (by decide)
    rw [h]
  · exact (context_precedence_and_absence "plain text").2.1 (by decide)
  · exact (context_precedence_and_absence "plain text").2.2 (by decide)

/-! ### C7: TASK_ID token extraction -/

/-- Counterexample to C7 as stated: the text `TASK_ID: abc` contains the
marker and a following token, yet no whitespace terminator follows the token,
so the pattern's mandatory final `\s` never matches and the extracted
`taskId` is absent instead of `abc`. -/
theorem task_id_no_terminator_counterexample :
    (parse_workflow_context "TASK_ID: abc").taskId = none := by decide

theorem dropWhile_append_of_all {α : Type} (p : α → Bool) :
    ∀ (w s : List α), (∀ a ∈ w, p a = true) →
      (w ++ s).dropWhile p = s.dropWhile p := by
  intro w
  induction w with
  | nil => intro s _; rfl
  | cons a as ih =>
    intro s hall
    rw [List.cons_append, List.dropWhile_cons_of_pos (hall a (List.mem_cons_self _ _))]
    exact ih s (fun x hx => hall x (List.mem_cons_of_mem _ hx))

theorem takeWhile_append_stop {α : Type} (p : α → Bool) (c : α) (hc : p c = false) :
    ∀ (tok rest : List α), (∀ a ∈ tok, p a = true) →
      (tok ++ c :: rest).takeWhile p = tok := by
  intro tok
  induction tok with
  | nil =>
    intro rest _
    rw [List.nil_append, List.takeWhile_cons_of_neg (by simp [hc])]
  | cons a as ih =>
    intro rest hall
    rw [List.cons_append, List.takeWhile_cons_of_pos (hall a (List.mem_cons_self _ _)),
      ih rest (fun x hx => hall x (List.mem_cons_of_mem _ hx))]

theorem stripQuotes_cons_quote (a : Char) (l : List Char) (h : isQuote a = true) :
    stripQuotes (a :: l) = stripQuotes l := by
  simp [stripQuotes, List.dropWhile_cons_of_pos h]

theorem stripQuotes_concat_quote (a : Char) (h : isQuote a = true) :
    ∀ l : List Char, stripQuotes (l ++ [a]) = stripQuotes l := by
  intro l
  induction l with
  | nil =>
    show stripQuotes [a] = stripQuotes []
    simp [stripQuotes, List.dropWhile_cons_of_pos h]
  | cons x xs ih =>
    by_cases hx : isQuote x = true
    · rw [List.cons_append, stripQuotes_cons_quote x _ hx, stripQuotes_cons_quote x xs hx]
      exact ih
    · unfold stripQuotes
      rw [List.cons_append, List.dropWhile_cons_of_neg hx, List.dropWhile_cons_of_neg hx]
      have hrev : (x :: (xs ++ [a])).reverse = a :: (xs.reverse ++ [x]) := by simp
      rw [hrev, List.dropWhile_cons_of_pos h, List.reverse_cons]

/-- Removing the regex's optional leading quote does not change the fully
quote-stripped token. -/
theorem stripQuotes_dropLeadQuote (T : List Char) :
    stripQuotes (dropLeadQuote T) = stripQuotes T := by
  cases T with
  | nil => rfl
  | cons t0 T1 =>
    cases T1 with
    | nil => rfl
    | cons t1 rest =>
      by_cases h : isQuote t0 = true
      · have hred : dropLeadQuote (t0 :: t1 :: rest) = t1 :: rest := by
          simp [dropLeadQuote, h]
        rw [hred, stripQuotes_cons_quote t0 _ h]
      · have hred : dropLeadQuote (t0 :: t1 :: rest) = t0 :: t1 :: rest := by
          simp [dropLeadQuote, h]
        rw [hred]

/-- Removing the regex's optional trailing quote does not change the fully
quote-stripped token. -/
theorem stripQuotes_dropTrailQuote (T : List Char) :
    stripQuotes (dropTrailQuote T) = stripQuotes T := by
  unfold dropTrailQuote
  by_cases h : (2 ≤ T.length && isQuote (T.getLastD ' ')) = true
  · rw [if_pos h]
    rw [Bool.and_eq_true] at h
    have hne : T ≠ [] := by
      intro hnil
      rw [hnil] at h
      simp at h
    have hlast : isQuote (T.getLast hne) = true := by
      have := h.2
      rwa [List.getLastD_eq_getLast?, List.getLast?_eq_getLast T hne, Option.getD_some] at this
    conv_rhs => rw [← List.dropLast_append_getLast hne]
    rw [stripQuotes_concat_quote _ hlast]
  · rw [if_neg h]

theorem stripQuotes_taskTokenGroup (T : List Char) :
    stripQuotes (taskTokenGroup T) = stripQuotes T := by
  unfold taskTokenGroup
  rw [stripQuotes_dropTrailQuote, stripQuotes_dropLeadQuote]

theorem taskIdSearch_here (s : List Char) (g : List Char)
    (hpre : "TASK_ID:".data.isPrefixOf s = true)
    (hAt : taskIdAt (s.drop 8) = some g) :
    taskIdSearch s = some g := by
  cases s with
  | nil => exact absurd hpre (by decide)
  | cons c rest =>
    rw [taskIdSearch, if_pos hpre, hAt]

/-- C7 (amended).  For an input text in which the `TASK_ID:` marker is
followed by optional whitespace, a non-empty non-whitespace token and a
whitespace terminator, the extracted `taskId` is that token with all leading
and trailing quote characters stripped; without a whitespace terminator after
the token the `taskId` is absent (see the counterexample). -/
theorem task_id_extraction (w tok rest : List Char) (c : Char)
    (hw : ∀ ch ∈ w, isSpace ch = true)
    (htok : ¬ tok = [])
    (htokc : ∀ ch ∈ tok, isSpace ch = false)
    (hc : isSpace c = true) :
    (parse_workflow_context
        (String.mk ("TASK_ID:".data ++ (w ++ (tok ++ c :: rest))))).taskId
      = some (String.mk (stripQuotes tok)) := by
  have h1 : (w ++ (tok ++ c :: rest)).dropWhile isSpace = tok ++ c :: rest := by
    rw [dropWhile_append_of_all isSpace w _ hw]
    cases tok with
    | nil => exact absurd rfl htok
    | cons t0 tok' =>
      rw [List.cons_append]
      exact List.dropWhile_cons_of_neg (by simp [htokc t0 (List.mem_cons_self _ _)])
  have h2 : (tok ++ c :: rest).takeWhile (fun ch => !(isSpace ch)) = tok :=
    takeWhile_append_stop _ c (by simp [hc]) tok rest (fun a ha => by simp [htokc a ha])
  have h3 : (tok ++ c :: rest).drop tok.length = c :: rest := List.drop_left _ _
  have htokE : tok.isEmpty = false := by
    cases tok with
    | nil => exact absurd rfl htok
    | cons a b => rfl
  have hAt : taskIdAt (w ++ (tok ++ c :: rest)) = some (stripQuotes tok) := by
    simp only [taskIdAt, h1, h2, h3, htokE, List.isEmpty_cons, Bool.false_eq_true,
      if_false, stripQuotes_taskTokenGroup]
  have hlen : ("TASK_ID:".data).length = 8 := rfl
  have hdrop : ("TASK_ID:".data ++ (w ++ (tok ++ c :: rest))).drop 8
      = w ++ (tok ++ c :: rest) := by
    rw [← hlen]
    exact List.drop_left _ _
  have hsearch : taskIdSearch ("TASK_ID:".data ++ (w ++ (tok ++ c :: rest)))
      = some (stripQuotes tok) := by
    apply taskIdSearch_here
    · exact List.isPrefixOf_iff_prefix.mpr (List.prefix_append _ _)
    · rw [hdrop]
      exact hAt
  show ((taskIdSearch ("TASK_ID:".data ++ (w ++ (tok ++ c :: rest)))).map String.mk) = _
  rw [hsearch]
  rfl

/-- Witness for the amended C7: a quoted token with a trailing space. -/
theorem task_id_extraction_witness :
    (parse_workflow_context "TASK_ID: `abc` next").taskId = some "abc" := by
  have h := task_id_extraction [' '] ['`', 'a', 'b', 'c', '`']
    (" next".data.drop 1) ' ' (by decide) (by decide) (by decide) (by decide)
  have he : String.mk ("TASK_ID:".data ++ ([' '] ++ (['`', 'a', 'b', 'c', '`']
      ++ ' ' :: (" next".data.drop 1)))) = "TASK_ID: `abc` next" := by decide
  rw [he] at h
  rw [h]
  decide

/-- Witness for C10: the first matching completion token `tX` is not indexed,
a later matching token `t1` is; the result is the recency fallback (the
second invocation), not the invocation linked by the later match. -/
theorem resolve_first_match_unindexed_witness :
    find_task_call_for_agent
      (some [some ⟨[ContentItem.toolUse "t1" "Task" "backend-toolbox:dev"
                      "TASK_ID: a reportType: r1 "], none⟩,
             some ⟨[ContentItem.toolUse "t2" "Task" "backend-toolbox:qa"
                      "TASK_ID: a reportType: r2 "], none⟩,
             some ⟨[ContentItem.toolResult "tX" "agentA early"], none⟩,
             some ⟨[ContentItem.toolResult "t1" "agentA late"], none⟩])
      "agentA" = ⟨"backend-toolbox:qa", "TASK_ID: a reportType: r2 "⟩ := by
  have h := resolve_first_match_unindexed
    [some ⟨[ContentItem.toolUse "t1" "Task" "backend-toolbox:dev"
              "TASK_ID: a reportType: r1 "], none⟩,
     some ⟨[ContentItem.toolUse "t2" "Task" "backend-toolbox:qa"
              "TASK_ID: a reportType: r2 "], none⟩,
     some ⟨[ContentItem.toolResult "tX" "agentA early"], none⟩,
     some ⟨[ContentItem.toolResult "t1" "agentA late"], none⟩]
    "agentA" ("tX", "agentA early") (by decide) (by decide) (by decide)
  rw [h]
  decide

end AutoSave
